import Mathlib

/-!
Verification of the NU_Scaler pipeline engine against its specification.

The frame loop, upscaler initialization and memory-strategy plumbing are
embedded from `nu_scaler_py/nu_scaler/main.py`; the GPU compute kernels
(Nearest upscaler, frame interpolator, BufferPool) live in the compiled
`nu_scaler_core` extension and are modelled from the specification where a
claim needs them.
-/

namespace NuScaler

/-- A captured RGBA frame as handled by the frame loop of
`nu_scaler/main.py`: the `(bytes, width, height)` triple returned by
`capture.get_frame()`. Bytes are modelled as natural numbers. -/
structure Frame where
  bytes : List ℕ
  w : ℕ
  h : ℕ
deriving DecidableEq

/-- Result of a call to `interpolator.interpolate_py` as observed by the
frame loop: a byte buffer, a `None` return, or a raised exception. -/
inductive InterpResult where
  | ok (bytes : List ℕ)
  | nores
  | err
deriving DecidableEq

/-- The `interpolation_status_for_frame` values of `update_frame`. -/
inductive InterpStatus where
  | interpolated
  | interpFailed
  | interpError
  | skippedDimMismatch
  | skippedNoPrev
  | interpOff
  | interpolatorNA
deriving DecidableEq

/-- The frame-interpolation section of `update_frame` (main.py lines
988-1034). Inputs: `enabled` is `self.interpolation_enabled`, `hasItp` is
`self.interpolator is not None`, `itp` is the interpolator call, `prev` is
`self.prev_frame_data`, `cur` is the captured frame. Returns
`(frame_to_process, interpolation_status_for_frame, prev_frame_data)`.
Line 1025 sets `prev_frame_data = None` on a dimension mismatch and line
1034 then unconditionally overwrites the slot with the current captured
frame; both assignments are modelled, in that order. The Python truthiness
test `if interpolated_frame_bytes:` treats an empty buffer like `None`. -/
def updateFrameInterp (enabled hasItp : Bool) (itp : Frame → Frame → InterpResult)
    (prev : Option Frame) (cur : Frame) : List ℕ × InterpStatus × Option Frame :=
  let step : List ℕ × InterpStatus × Option Frame :=
    if enabled && hasItp then
      match prev with
      | some p =>
        if p.w = cur.w ∧ p.h = cur.h then
          match itp p cur with
          | .ok b => if b = [] then (cur.bytes, .interpFailed, prev)
                     else (b, .interpolated, prev)
          | .nores => (cur.bytes, .interpFailed, prev)
          | .err => (cur.bytes, .interpError, prev)
        else (cur.bytes, .skippedDimMismatch, Option.none)
      | Option.none => (cur.bytes, .skippedNoPrev, prev)
    else
      (cur.bytes, if hasItp then .interpOff else .interpolatorNA, prev)
  (step.1, step.2.1, some cur)

/-- The frame loop run over a list of captured frames with interpolation
enabled and an interpolator present, one `update_frame` tick per frame and
the upscale worker free on every tick: each tick hands exactly one buffer,
`frame_to_process`, to the upscale worker, whose result is the single sink
emission of the tick. Returns the per-tick `(frame_to_process, status)`
pairs in delivery order. -/
def runLoop (itp : Frame → Frame → InterpResult) :
    Option Frame → List Frame → List (List ℕ × InterpStatus)
  | _, [] => []
  | prev, f :: fs =>
    let r := updateFrameInterp true true itp prev f
    (r.1, r.2.1) :: runLoop itp r.2.2 fs

/-- The worker gate at the end of `update_frame` (main.py lines 1073-1087):
if `self._upscale_thread` is not `None` the tick returns and the frame just
captured is discarded; otherwise a worker is started on the frame. Returns
`(in-flight frame after the tick, frame discarded by the tick)`. No input
queue and no drop counter exist in the code. -/
def workerGate (inFlight : Option (List ℕ)) (arriving : List ℕ) :
    Option (List ℕ) × Option (List ℕ) :=
  match inFlight with
  | some busy => (some busy, some arriving)
  | Option.none => (some arriving, Option.none)

/-- Python `int()` applied to a real value: truncation toward zero, modelled
on exact rational arithmetic. -/
def pyInt (q : ℚ) : ℤ := if 0 ≤ q then ⌊q⌋ else ⌈q⌉

/-- Output dimensions computed by `init_upscaler` (main.py lines 896-897):
`out_w = int(in_w * scale)` and `out_h = int(in_h * scale)`, with the float
product modelled by exact rational arithmetic. -/
def initUpscalerDims (inW inH : ℕ) (scale : ℚ) : ℕ × ℕ :=
  ((pyInt (inW * scale)).toNat, (pyInt (inH * scale)).toNat)

/-- Pixel/channel read from a tightly strided RGBA frame, byte index
`4·(y·w + x) + c`. -/
def pxl (f : Frame) (x y c : ℕ) : ℕ := f.bytes.getD (4 * (y * f.w + x) + c) 0

/-- Modelled from the spec: the Nearest sampling rule, "sample at
`floor((i+0.5)·in_w/out_w, (j+0.5)·in_h/out_h)`" (§4.4);
`(2·i+1)·in_w / (2·out_w)` in natural division is that floor exactly. The
Nearest compute kernel itself lives in the compiled `nu_scaler_core`
extension, absent from the Python sources. -/
def nearestIdx (inD outD i : ℕ) : ℕ := (2 * i + 1) * inD / (2 * outD)

/-- Modelled from the spec: the Nearest upscaler, producing the RGBA8 output
buffer of `4·out_w·out_h` bytes (§4.4), each output pixel sampled through
`nearestIdx`. -/
def nearestUpscale (f : Frame) (outW outH : ℕ) : List ℕ :=
  List.ofFn fun k : Fin (4 * outW * outH) =>
    pxl f (nearestIdx f.w outW (k.1 / 4 % outW)) (nearestIdx f.h outH (k.1 / 4 / outW))
      (k.1 % 4)

/-- Scenario S1 input: a 4-by-4 RGBA frame with pixel `(x, y)` equal to
`(x·63, y·63, 0, 255)`. -/
def s1Frame : Frame :=
  ⟨[0, 0, 0, 255, 63, 0, 0, 255, 126, 0, 0, 255, 189, 0, 0, 255,
    0, 63, 0, 255, 63, 63, 0, 255, 126, 63, 0, 255, 189, 63, 0, 255,
    0, 126, 0, 255, 63, 126, 0, 255, 126, 126, 0, 255, 189, 126, 0, 255,
    0, 189, 0, 255, 63, 189, 0, 255, 126, 189, 0, 255, 189, 189, 0, 255], 4, 4⟩

/-- Edge clamp of an integer coordinate into `[0, d-1]` (§4.5 boundary
behaviour: samples outside the image clamp to the edge). -/
def clampCoord (d : ℕ) (z : ℤ) : ℕ := min z.toNat (d - 1)

/-- Frame read at integer coordinates with edge clamp. -/
def pxlClamp (f : Frame) (x y : ℤ) (c : ℕ) : ℕ :=
  pxl f (clampCoord f.w x) (clampCoord f.h y) c

/-- Modelled from the spec: the sum of absolute differences between the
window of `A` shifted by the candidate offset `o` and the window of `B`,
over a `(2r+1)`-square search window and the four RGBA channels (§4.5
step 2). The interpolation compute shader lives in the compiled
`nu_scaler_core` extension, absent from the Python sources. -/
def sadAt (A B : Frame) (x y r : ℕ) (o : ℤ × ℤ) : ℕ :=
  List.sum <| (List.range (2 * r + 1)).map fun dy =>
    List.sum <| (List.range (2 * r + 1)).map fun dx =>
      List.sum <| (List.range 4).map fun c =>
        ((pxlClamp A ((x : ℤ) + dx - r + o.1) ((y : ℤ) + dy - r + o.2) c : ℤ)
          - (pxlClamp B ((x : ℤ) + dx - r) ((y : ℤ) + dy - r) c : ℤ)).natAbs

/-- Candidate motion offsets of the search window of radius `r`. -/
def offsetWindow (r : ℕ) : List (ℤ × ℤ) :=
  ((List.range (2 * r + 1)).map fun dy =>
    (List.range (2 * r + 1)).map fun dx => ((dx : ℤ) - r, (dy : ℤ) - r)).flatten

/-- Modelled from the spec: the local motion estimate, the candidate offset
minimizing the sum of absolute differences (§4.5 step 2); the fold starts
from the zero offset and only a strictly smaller SAD replaces the current
best, making the estimate deterministic for identical inputs (§4.5). -/
def bestOffset (A B : Frame) (x y r : ℕ) : ℤ × ℤ :=
  (offsetWindow r).foldl
    (fun best c => if sadAt A B x y r c < sadAt A B x y r best then c else best) (0, 0)

/-- Modelled from the spec: one output pixel channel of the interpolation
shader (§4.5): estimate the motion, warp `A` by `t·motion` and `B` by
`(1−t)·motion` with rounded, edge-clamped coordinates, then blend with
weights `(1−t)` and `t` and floor back to a byte. -/
def interpolatePixel (A B : Frame) (t : ℚ) (r x y c : ℕ) : ℕ :=
  let m := bestOffset A B x y r
  let av := pxlClamp A ((x : ℤ) + round (t * (m.1 : ℚ)))
    ((y : ℤ) + round (t * (m.2 : ℚ))) c
  let bv := pxlClamp B ((x : ℤ) - round ((1 - t) * (m.1 : ℚ)))
    ((y : ℤ) - round ((1 - t) * (m.2 : ℚ))) c
  (⌊(1 - t) * (av : ℚ) + t * (bv : ℚ)⌋).toNat

/-- Modelled from the spec: `FrameInterpolator.interpolate(A, B, t)`; the
pre-condition `A.dims == B.dims` is enforced at call and its violation
fails with `DimensionMismatch` (§4.5). -/
def interpolate (A B : Frame) (t : ℚ) (r : ℕ) : Except String (List ℕ) :=
  if A.w = B.w ∧ A.h = B.h then
    .ok (List.ofFn fun k : Fin (4 * A.w * A.h) =>
      interpolatePixel A B t r (k.1 / 4 % A.w) (k.1 / 4 / A.w) (k.1 % 4))
  else .error "DimensionMismatch"

/-- Memory strategies of the BufferPool (§4.2, §6). -/
inductive MemoryStrategy where
  | auto
  | aggressive
  | balanced
  | conservative
  | minimal
deriving DecidableEq

/-- Modelled from the spec: "`Auto` chooses based on observed
`vram_stats().usage_percent`: ≥ 90% → Conservative, ≥ 75% → Balanced,
otherwise Aggressive" (§4.2). The BufferPool lives in the compiled
`nu_scaler_core` extension, absent from the Python sources. -/
def autoChoose (p : ℚ) : MemoryStrategy :=
  if 90 ≤ p then .conservative else if 75 ≤ p then .balanced else .aggressive

/-- An upscaler object as probed by `set_memory_strategy`: whether it
exposes the `set_memory_strategy` capability (the `hasattr` check), the
strategy currently applied, and whether the inner call raises. -/
structure Upscaler where
  hasSetMemoryStrategy : Bool
  strategy : String
  setRaises : Bool
deriving DecidableEq

/-- The GUI state touched by `set_memory_strategy`: `self.upscaler`, which
is `None` until capture initializes one. -/
structure GuiState where
  upscaler : Option Upscaler
deriving DecidableEq

/-- The lowered strategy names of `set_memory_strategy` (main.py line 852). -/
def strategyNames : List String :=
  ["auto", "aggressive", "balanced", "conservative", "minimal"]

/-- `set_memory_strategy` (main.py lines 848-861): returns immediately when
no upscaler exists or the upscaler lacks the capability; otherwise applies
the indexed strategy, its inner `try` catching a raising setter and the
outer handler catching everything else, so the method never raises. -/
def set_memory_strategy (st : GuiState) (index : ℤ) : Except String GuiState :=
  match st.upscaler with
  | Option.none => .ok st
  | some u =>
    if u.hasSetMemoryStrategy = false then .ok st
    else if 0 ≤ index ∧ index < 5 then
      if u.setRaises then .ok st
      else .ok ⟨some ⟨u.hasSetMemoryStrategy, strategyNames.getD index.toNat "", u.setRaises⟩⟩
    else .ok st

/-- An output frame delivered to the sink (§6): an upscaled frame carrying
its source sequence number, or an interpolated frame carrying its two
source sequence numbers. -/
inductive OutFrame where
  | up (seq : ℕ)
  | interp (p n : ℕ)
deriving DecidableEq

/-- The source sequence number observed by the sink on a delivered frame;
an interpolated frame reports its earlier source. -/
def seqOf : OutFrame → ℕ
  | .up s => s
  | .interp p _ => p

/-- Modelled from the spec: the serializer "reorders completed
UpscaledFrames by source sequence number so that the downstream sink sees
monotonic frames" (§4.6); the completion order is arbitrary, covering every
worker count `W ≥ 1`. The pipeline coordinator belongs to the
re-architected engine and is absent from the Python sources. -/
def serialize (completed : List ℕ) : List ℕ := List.insertionSort (· ≤ ·) completed

/-- Modelled from the spec: with interpolation enabled the coordinator
dispatches the FrameInterpolator on `(prev, current)`, "emits the
interpolated frame, then emits current" (§4.6), giving the delivery
pattern `up(s0), interp(s0,s1), up(s1), ...` (§8, scenario S4). -/
def interleave : List ℕ → List OutFrame
  | [] => []
  | [s] => [.up s]
  | s :: t :: rest => .up s :: .interp s t :: interleave (t :: rest)

/-! ## Theorems -/

/-- The flat byte index of `pxl` recovers the original byte position: layer
the usual div/mod identities. -/
theorem pxl_decompose (f : Frame) (k : ℕ) :
    pxl f (k / 4 % f.w) (k / 4 / f.w) (k % 4) = f.bytes.getD k 0 := by
  unfold pxl
  congr 1
  have h1 : k / 4 / f.w * f.w + k / 4 % f.w = k / 4 := by
    rw [Nat.mul_comm]
    exact Nat.div_add_mod (k / 4) f.w
  rw [h1]
  exact Nat.div_add_mod k 4

/-- The Nearest sampling rule is the identity when output and input
dimensions agree. -/
theorem nearestIdx_self (d i : ℕ) (hd : 0 < d) : nearestIdx d d i = i := by
  unfold nearestIdx
  have h : (2 * i + 1) * d = d + i * (2 * d) := by ring
  rw [h, Nat.add_mul_div_right _ _ (by omega : 0 < 2 * d),
    Nat.div_eq_of_lt (by omega : d < 2 * d)]
  omega

/-- A list rebuilt positionally from its own entries is itself. -/
theorem ofFn_getD (l : List ℕ) (n : ℕ) (hl : l.length = n) :
    List.ofFn (fun k : Fin n => l.getD k.1 0) = l := by
  subst hl
  have hfun : (fun k : Fin l.length => l.getD k.1 0)
      = fun i : Fin l.length => l[(i : ℕ)] := by
    funext k
    exact List.getD_eq_getElem l 0 k.2
  rw [hfun]
  exact List.ofFn_getElem l

/-- Length of the modelled upscaler output. -/
theorem nearestUpscale_length (f : Frame) (a b : ℕ) :
    (nearestUpscale f a b).length = 4 * a * b := by
  unfold nearestUpscale
  exact List.length_ofFn _

/-- C6 (Nearest kernel modelled from the spec): with `scale = 1.0`, that is
output dimensions equal to the input dimensions, the Nearest upscaler
returns a buffer byte-for-byte equal to its input, because the sampling
rule `floor((i+0.5)·in_w/out_w)` maps every output pixel to itself. -/
theorem nearest_identity (f : Frame) (hw : 0 < f.w) (hh : 0 < f.h)
    (hl : f.bytes.length = 4 * f.w * f.h) :
    nearestUpscale f f.w f.h = f.bytes := by
  have h1 : nearestUpscale f f.w f.h
      = List.ofFn (fun k : Fin (4 * f.w * f.h) => f.bytes.getD k.1 0) := by
    unfold nearestUpscale
    congr 1
    funext k
    rw [nearestIdx_self _ _ hw, nearestIdx_self _ _ hh, pxl_decompose]
  rw [h1, ofFn_getD _ _ hl]

/-- Witness for C6 on the S1 scenario frame. -/
theorem nearest_identity_witness :
    0 < s1Frame.w ∧ 0 < s1Frame.h ∧
    s1Frame.bytes.length = 4 * s1Frame.w * s1Frame.h ∧
    nearestUpscale s1Frame s1Frame.w s1Frame.h = s1Frame.bytes :=
  ⟨by decide, by decide, by decide,
    nearest_identity s1Frame (by decide) (by decide) (by decide)⟩

/-- C1 fails on the code: `init_upscaler` computes the output dimensions by
truncation (`out_w = int(in_w * scale)`, line 896), not by rounding; at
`in_w = in_h = 1` and `scale = 3/2`, which lies in [1, 4], the code yields
output dimension 1 while the claimed rounding yields 2. -/
theorem truncation_not_round_counterexample :
    (1 : ℚ) ≤ 3 / 2 ∧ (3 / 2 : ℚ) ≤ 4 ∧
    initUpscalerDims 1 1 (3 / 2) = (1, 1) ∧
    (round (((1 : ℕ) : ℚ) * (3 / 2))).toNat = 2 ∧
    (initUpscalerDims 1 1 (3 / 2)).1 ≠ (round (((1 : ℕ) : ℚ) * (3 / 2))).toNat := by
  have hfl : ⌊((1 : ℕ) : ℚ) * (3 / 2)⌋ = 1 := by
    rw [Int.floor_eq_iff] <;> norm_num
  have hrd : round (((1 : ℕ) : ℚ) * (3 / 2)) = 2 := by
    rw [round_eq, Int.floor_eq_iff] <;> norm_num
  have hdim : initUpscalerDims 1 1 (3 / 2) = (1, 1) := by
    unfold initUpscalerDims pyInt
    rw [if_pos (by norm_num : (0 : ℚ) ≤ ((1 : ℕ) : ℚ) * (3 / 2)), hfl]
    rfl
  refine ⟨by norm_num, by norm_num, hdim, by rw [hrd]; rfl, ?_⟩
  rw [hdim, hrd]
  decide

/-- C1 amended: for positive input dimensions and every `scale ∈ [1, 4]`,
the upscaler produces a byte buffer of exactly
`4·⌊in_w·scale⌋·⌊in_h·scale⌋` bytes, the output dimensions being the
truncations `out_w = int(in_w·scale)` and `out_h = int(in_h·scale)`
computed by `init_upscaler` (floor, not round). -/
theorem upscale_output_size (inW inH : ℕ) (scale : ℚ) (f : Frame)
    (hw : 0 < inW) (hh : 0 < inH) (hfw : f.w = inW) (hfh : f.h = inH)
    (hs1 : 1 ≤ scale) (hs4 : scale ≤ 4) :
    (nearestUpscale f (initUpscalerDims inW inH scale).1
        (initUpscalerDims inW inH scale).2).length
      = 4 * (⌊(inW : ℚ) * scale⌋).toNat * (⌊(inH : ℚ) * scale⌋).toNat := by
  have hnn : ∀ n : ℕ, (0 : ℚ) ≤ (n : ℚ) * scale := fun n =>
    mul_nonneg (Nat.cast_nonneg n) (le_trans zero_le_one hs1)
  have h1 : (initUpscalerDims inW inH scale).1 = (⌊(inW : ℚ) * scale⌋).toNat := by
    simp [initUpscalerDims, pyInt, if_pos (hnn inW)]
  have h2 : (initUpscalerDims inW inH scale).2 = (⌊(inH : ℚ) * scale⌋).toNat := by
    simp [initUpscalerDims, pyInt, if_pos (hnn inH)]
  rw [h1, h2, nearestUpscale_length]

/-- Witness for the amended C1: a 2-by-2 frame at scale 3/2 gives
a 3-by-3 output, 36 bytes. -/
theorem upscale_output_size_witness :
    0 < 2 ∧ (1 : ℚ) ≤ 3 / 2 ∧ (3 / 2 : ℚ) ≤ 4 ∧
    (nearestUpscale ⟨List.replicate 16 0, 2, 2⟩ (initUpscalerDims 2 2 (3 / 2)).1
        (initUpscalerDims 2 2 (3 / 2)).2).length
      = 4 * (⌊((2 : ℕ) : ℚ) * (3 / 2)⌋).toNat * (⌊((2 : ℕ) : ℚ) * (3 / 2)⌋).toNat :=
  ⟨by decide, by norm_num, by norm_num,
    upscale_output_size 2 2 (3 / 2) ⟨List.replicate 16 0, 2, 2⟩
      (by decide) (by decide) rfl rfl (by norm_num) (by norm_num)⟩

/-- C9: after the frame loop processes any captured frame, the retained
previous-frame slot `prev_frame_data` holds exactly that captured frame's
bytes and dimensions, in every branch (interpolated, failed, errored,
skipped, or dimension mismatch), because line 1034 of `update_frame`
assigns the slot unconditionally after the interpolation section; hence
the interpolator's two inputs are always two consecutive captured frames
and never a previously synthesized frame. -/
theorem prev_slot_holds_current (enabled hasItp : Bool)
    (itp : Frame → Frame → InterpResult) (prev : Option Frame) (cur : Frame) :
    (updateFrameInterp enabled hasItp itp prev cur).2.2 = some cur := rfl

/-- C2 fails on the code: when interpolation succeeds, the tick's single
sink emission is the interpolated frame in place of the current frame
(`frame_to_process = interpolated_frame_bytes`, main.py line 1008). A run
over two source frames delivers 2 frames, not 3, and the second source
frame's own bytes never reach the sink. -/
theorem interp_replaces_current_counterexample :
    runLoop (fun _ _ => .ok [9, 9, 9, 9]) Option.none
        [⟨[0, 0, 0, 255], 1, 1⟩, ⟨[10, 20, 30, 255], 1, 1⟩]
      = [([0, 0, 0, 255], .skippedNoPrev), ([9, 9, 9, 9], .interpolated)] ∧
    (runLoop (fun _ _ => .ok [9, 9, 9, 9]) Option.none
        [⟨[0, 0, 0, 255], 1, 1⟩, ⟨[10, 20, 30, 255], 1, 1⟩]).length = 2 ∧
    [10, 20, 30, 255] ∉ (runLoop (fun _ _ => .ok [9, 9, 9, 9]) Option.none
        [⟨[0, 0, 0, 255], 1, 1⟩, ⟨[10, 20, 30, 255], 1, 1⟩]).map Prod.fst := by
  decide

/-- C2 amended: with interpolation enabled, every tick emits exactly one
frame; the first captured frame is emitted as captured (no previous frame),
and each later tick whose interpolation succeeds emits the interpolated
frame in place of the current one, so a run over source frames 0..n
delivers n+1 frames in the pattern up(0), interp(0,1), ..., interp(n-1,n). -/
theorem interp_emission_pattern (itp : Frame → Frame → InterpResult)
    (ib : Frame → Frame → List ℕ) (w h : ℕ)
    (hitp : ∀ a b, itp a b = .ok (ib a b)) (hne : ∀ a b, ib a b ≠ [])
    (f : Frame) (fs : List Frame)
    (hdims : ∀ g ∈ f :: fs, g.w = w ∧ g.h = h) :
    runLoop itp Option.none (f :: fs)
      = (f.bytes, .skippedNoPrev)
          :: List.zipWith (fun a b => (ib a b, .interpolated)) (f :: fs) fs := by
  have aux : ∀ (fs : List Frame) (p : Frame), p.w = w → p.h = h →
      (∀ g ∈ fs, g.w = w ∧ g.h = h) →
      runLoop itp (some p) fs
        = List.zipWith (fun a b => (ib a b, .interpolated)) (p :: fs) fs := by
    intro fs
    induction fs with
    | nil => intro p _ _ _; rfl
    | cons g gs ih =>
      intro p hpw hph hd
      have hg : g.w = w ∧ g.h = h := hd g (List.mem_cons_self g gs)
      have hcond : p.w = g.w ∧ p.h = g.h := ⟨by rw [hpw, hg.1], by rw [hph, hg.2]⟩
      have hstep : updateFrameInterp true true itp (some p) g
          = (ib p g, .interpolated, some g) := by
        simp [updateFrameInterp, hcond.1, hcond.2, hitp, hne p g]
      simp only [runLoop, hstep]
      have := ih g hg.1 hg.2 (fun x hx => hd x (List.mem_cons_of_mem g hx))
      simp only [this, List.zipWith]
  have hf : f.w = w ∧ f.h = h := hdims f (List.mem_cons_self f fs)
  have hstep0 : updateFrameInterp true true itp Option.none f
      = (f.bytes, .skippedNoPrev, some f) := by
    simp [updateFrameInterp]
  simp only [runLoop, hstep0]
  rw [aux fs f hf.1 hf.2 (fun x hx => hdims x (List.mem_cons_of_mem f hx))]

/-- Witness for the amended C2 at a concrete three-frame run. -/
theorem interp_emission_pattern_witness :
    runLoop (fun a b => .ok (9 :: (a.bytes ++ b.bytes))) Option.none
        [⟨[1, 1, 1, 1], 1, 1⟩, ⟨[2, 2, 2, 2], 1, 1⟩, ⟨[3, 3, 3, 3], 1, 1⟩]
      = [([1, 1, 1, 1], .skippedNoPrev),
         ([9, 1, 1, 1, 1, 2, 2, 2, 2], .interpolated),
         ([9, 2, 2, 2, 2, 3, 3, 3, 3], .interpolated)] :=
  interp_emission_pattern _ (fun a b => 9 :: (a.bytes ++ b.bytes)) 1 1
    (fun _ _ => rfl) (fun _ _ => List.cons_ne_nil _ _)
    ⟨[1, 1, 1, 1], 1, 1⟩ [⟨[2, 2, 2, 2], 1, 1⟩, ⟨[3, 3, 3, 3], 1, 1⟩]
    (by decide)

/-- C4 fails on the code: a dimension-mismatched tick replaces the retained
previous-frame slot with the mismatching current frame (line 1025 clears it
and line 1034 overwrites it with the current frame), so the next
interpolation call does not observe the slot from before the failing call. -/
theorem dim_mismatch_mutates_slot_counterexample :
    (updateFrameInterp true true (fun _ _ => .err)
        (some ⟨[1, 2, 3, 4], 1, 1⟩) ⟨[5, 5, 5, 5, 6, 6, 6, 6], 2, 1⟩).2.2
      = some ⟨[5, 5, 5, 5, 6, 6, 6, 6], 2, 1⟩ ∧
    (updateFrameInterp true true (fun _ _ => .err)
        (some ⟨[1, 2, 3, 4], 1, 1⟩) ⟨[5, 5, 5, 5, 6, 6, 6, 6], 2, 1⟩).2.2
      ≠ some ⟨[1, 2, 3, 4], 1, 1⟩ := by decide

/-- C4 amended: on mismatched dimensions the frame loop never calls the
interpolator (so no DimensionMismatch error surfaces from it); the frame is
emitted non-interpolated with the dim-mismatch status, and the retained
previous-frame slot is replaced by the current, mismatching frame, so the
next interpolation pairs the mismatching frame with its successor rather
than observing the pre-failure slot. -/
theorem dim_mismatch_skips_and_retargets (itp : Frame → Frame → InterpResult)
    (p cur : Frame) (hne : ¬(p.w = cur.w ∧ p.h = cur.h)) :
    updateFrameInterp true true itp (some p) cur
      = (cur.bytes, .skippedDimMismatch, some cur) := by
  simp [updateFrameInterp, hne]

/-- Witness for the amended C4 at concrete mismatching frames. -/
theorem dim_mismatch_skips_and_retargets_witness :
    ¬((Frame.mk [1, 2, 3, 4] 1 1).w = (Frame.mk [5, 5, 5, 5, 6, 6, 6, 6] 2 1).w
        ∧ (Frame.mk [1, 2, 3, 4] 1 1).h = (Frame.mk [5, 5, 5, 5, 6, 6, 6, 6] 2 1).h) ∧
    updateFrameInterp true true (fun _ _ => .nores)
        (some (Frame.mk [1, 2, 3, 4] 1 1)) (Frame.mk [5, 5, 5, 5, 6, 6, 6, 6] 2 1)
      = ([5, 5, 5, 5, 6, 6, 6, 6], .skippedDimMismatch,
          some (Frame.mk [5, 5, 5, 5, 6, 6, 6, 6] 2 1)) :=
  ⟨by decide, dim_mismatch_skips_and_retargets _ _ _ (by decide)⟩

/-- C5 fails on the code: while an upscale worker is in flight, the tick
discards the frame that just arrived, not the oldest queued frame; the
in-flight frame is untouched and no drop counter exists. -/
theorem drop_newest_counterexample :
    workerGate (some [1, 1, 1, 1]) [2, 2, 2, 2]
      = (some [1, 1, 1, 1], some [2, 2, 2, 2]) ∧
    (workerGate (some [1, 1, 1, 1]) [2, 2, 2, 2]).2 ≠ some [1, 1, 1, 1] := by
  decide

/-- C5 amended: there is no bounded input queue of capacity W+1; at most one
frame is in flight. A tick that finds a worker in flight discards the
arriving frame and leaves the in-flight frame unchanged, returning
immediately (the capture producer is not blocked); a tick that finds no
worker in flight dispatches the arriving frame and discards nothing. No
dropped-frames counter is maintained. -/
theorem worker_gate_drops_arriving (busy arriving : List ℕ) :
    workerGate (some busy) arriving = (some busy, some arriving) ∧
    workerGate Option.none arriving = (some arriving, Option.none) :=
  ⟨rfl, rfl⟩

/-- With identical inputs the zero offset has zero SAD. -/
theorem sadAt_self_zero (A : Frame) (x y r : ℕ) : sadAt A A x y r (0, 0) = 0 := by
  unfold sadAt
  apply List.sum_eq_zero
  intro a ha
  obtain ⟨dy, _, rfl⟩ := List.mem_map.mp ha
  apply List.sum_eq_zero
  intro b hb
  obtain ⟨dx, _, rfl⟩ := List.mem_map.mp hb
  apply List.sum_eq_zero
  intro c hc
  obtain ⟨ch, _, rfl⟩ := List.mem_map.mp hc
  simp

/-- A best-so-far fold with strict improvement never leaves an initial
candidate of score zero. -/
theorem foldl_best_keep {α : Type} (g : α → ℕ) (init : α) (h : g init = 0) :
    ∀ l : List α,
      l.foldl (fun best c => if g c < g best then c else best) init = init := by
  intro l
  induction l with
  | nil => rfl
  | cons c l ih =>
    have hc : (if g c < g init then c else init) = init := by
      rw [h]
      exact if_neg (Nat.not_lt_zero _)
    rw [List.foldl_cons, hc]
    exact ih

/-- With identical inputs the motion estimate is the zero offset. -/
theorem bestOffset_self (A : Frame) (x y r : ℕ) : bestOffset A A x y r = (0, 0) := by
  unfold bestOffset
  exact foldl_best_keep (sadAt A A x y r) (0, 0) (sadAt_self_zero A x y r) (offsetWindow r)

/-- Clamped reads inside the frame are plain reads. -/
theorem pxlClamp_in_range (f : Frame) (x y c : ℕ) (hx : x < f.w) (hy : y < f.h) :
    pxlClamp f (x : ℤ) (y : ℤ) c = pxl f x y c := by
  unfold pxlClamp clampCoord
  rw [Int.toNat_natCast, Int.toNat_natCast,
    Nat.min_eq_left (by omega), Nat.min_eq_left (by omega)]

/-- Per-pixel identity of the self-interpolation at `t = 1/2`. -/
theorem interpolatePixel_self (A : Frame) (r x y c : ℕ)
    (hx : x < A.w) (hy : y < A.h) :
    interpolatePixel A A (1 / 2) r x y c = pxl A x y c := by
  unfold interpolatePixel
  rw [bestOffset_self]
  simp only [Int.cast_zero, mul_zero, round_zero, add_zero, sub_zero]
  rw [pxlClamp_in_range A x y c hx hy]
  have hb : (1 - (1 : ℚ) / 2) * (pxl A x y c : ℚ) + (1 / 2) * (pxl A x y c : ℚ)
      = ((pxl A x y c : ℕ) : ℚ) := by ring
  rw [hb, Int.floor_natCast, Int.toNat_natCast]

/-- C7 (interpolation shader modelled from the spec): interpolating a frame
with itself at `t = 1/2` returns a buffer byte-equal to the input: the SAD
of the zero offset is zero so the motion estimate is zero, the warps are
the identity, and the `(1−t)/t` blend of equal bytes is the byte itself. -/
theorem interpolate_self_identity (A : Frame) (r : ℕ) (hw : 0 < A.w) (hh : 0 < A.h)
    (hl : A.bytes.length = 4 * A.w * A.h) :
    interpolate A A (1 / 2) r = .ok A.bytes := by
  unfold interpolate
  rw [if_pos ⟨rfl, rfl⟩]
  have h1 : (List.ofFn fun k : Fin (4 * A.w * A.h) =>
      interpolatePixel A A (1 / 2) r (k.1 / 4 % A.w) (k.1 / 4 / A.w) (k.1 % 4))
      = List.ofFn (fun k : Fin (4 * A.w * A.h) => A.bytes.getD k.1 0) := by
    congr 1
    funext k
    have hx : k.1 / 4 % A.w < A.w := Nat.mod_lt _ hw
    have hy : k.1 / 4 / A.w < A.h := by
      have hk : k.1 < 4 * A.w * A.h := k.2
      have h4 : k.1 / 4 < A.w * A.h := by
        rw [Nat.div_lt_iff_lt_mul (by omega : 0 < 4)]
        calc k.1 < 4 * A.w * A.h := hk
          _ = A.w * A.h * 4 := by ring
      rw [Nat.div_lt_iff_lt_mul hw]
      calc k.1 / 4 < A.w * A.h := h4
        _ = A.h * A.w := by ring
    rw [interpolatePixel_self A r _ _ _ hx hy, pxl_decompose]
  rw [h1, ofFn_getD _ _ hl]

/-- Witness for C7 on a concrete one-pixel frame with search radius 1. -/
theorem interpolate_self_identity_witness :
    0 < (Frame.mk [10, 20, 30, 255] 1 1).w ∧ 0 < (Frame.mk [10, 20, 30, 255] 1 1).h ∧
    (Frame.mk [10, 20, 30, 255] 1 1).bytes.length
      = 4 * (Frame.mk [10, 20, 30, 255] 1 1).w * (Frame.mk [10, 20, 30, 255] 1 1).h ∧
    interpolate (Frame.mk [10, 20, 30, 255] 1 1) (Frame.mk [10, 20, 30, 255] 1 1) (1 / 2) 1
      = .ok [10, 20, 30, 255] :=
  ⟨by decide, by decide, by decide,
    interpolate_self_identity (Frame.mk [10, 20, 30, 255] 1 1) 1
      (by decide) (by decide) (by decide)⟩

/-- Interleaving a nonempty sequence starts with its head as an upscaled
frame. -/
theorem interleave_cons_head (s : ℕ) (l : List ℕ) :
    ∃ r, interleave (s :: l) = .up s :: r := by
  cases l with
  | nil => exact ⟨[], rfl⟩
  | cons t rest => exact ⟨_, rfl⟩

/-- The sequence numbers observed on an interleaved delivery of a
non-decreasing sequence are non-decreasing. -/
theorem interleave_chain (l : List ℕ) (h : List.Chain' (· ≤ ·) l) :
    List.Chain' (· ≤ ·) ((interleave l).map seqOf) := by
  induction l with
  | nil => simp [interleave]
  | cons s tl ih =>
    cases tl with
    | nil => simp [interleave, seqOf]
    | cons t rest =>
      have h1 : s ≤ t := (List.chain'_cons.mp h).1
      have h2 : List.Chain' (· ≤ ·) (t :: rest) := (List.chain'_cons.mp h).2
      have ihc := ih h2
      obtain ⟨r, hr⟩ := interleave_cons_head t rest
      show List.Chain' (· ≤ ·)
        ((OutFrame.up s :: OutFrame.interp s t :: interleave (t :: rest)).map seqOf)
      rw [hr] at ihc ⊢
      simp only [List.map_cons, seqOf] at ihc ⊢
      exact List.chain'_cons.mpr ⟨le_refl s, List.chain'_cons.mpr ⟨h1, ihc⟩⟩

/-- Every interpolated frame in an interleaved delivery sits immediately
between the upscaled frames of its two sources. -/
theorem interleave_interp_between (l : List ℕ) (p n : ℕ)
    (h : OutFrame.interp p n ∈ interleave l) :
    ∃ pre post, interleave l
      = pre ++ OutFrame.up p :: OutFrame.interp p n :: OutFrame.up n :: post := by
  induction l with
  | nil => simp [interleave] at h
  | cons s tl ih =>
    cases tl with
    | nil => simp [interleave] at h
    | cons t rest =>
      have hsplit : interleave (s :: t :: rest)
          = OutFrame.up s :: OutFrame.interp s t :: interleave (t :: rest) := rfl
      rw [hsplit] at h
      rcases List.mem_cons.mp h with h1 | h1
      · exact absurd h1 (by simp)
      rcases List.mem_cons.mp h1 with h2 | h2
      · obtain ⟨hp, hn⟩ : p = s ∧ n = t := by
          injection h2 with hp hn
          exact ⟨hp, hn⟩
        obtain ⟨r, hr⟩ := interleave_cons_head t rest
        refine ⟨[], r, ?_⟩
        rw [hsplit, hr, hp, hn]
        rfl
      · obtain ⟨pre, post, hpp⟩ := ih h2
        refine ⟨OutFrame.up s :: OutFrame.interp s t :: pre, post, ?_⟩
        rw [hsplit, hpp]
        simp

/-- C3 (coordinator and serializer modelled from the spec): for any
completion order of the upscale workers, hence for every worker count
`W ≥ 1`, the sink observes non-decreasing source sequence numbers, and with
interpolation enabled every interpolated frame is delivered immediately
between the upscaled frames of its two sources. -/
theorem sink_ordering (completed : List ℕ) :
    List.Chain' (· ≤ ·) ((interleave (serialize completed)).map seqOf) ∧
    ∀ p n, OutFrame.interp p n ∈ interleave (serialize completed) →
      ∃ pre post, interleave (serialize completed)
        = pre ++ OutFrame.up p :: OutFrame.interp p n :: OutFrame.up n :: post := by
  constructor
  · exact interleave_chain _ ((List.sorted_insertionSort _ completed).chain')
  · intro p n h
    exact interleave_interp_between _ p n h

/-- Witness for C3 on the out-of-order completion list `[2, 0, 1]`. -/
theorem sink_ordering_witness :
    List.Chain' (· ≤ ·) ((interleave (serialize [2, 0, 1])).map seqOf) ∧
    (OutFrame.interp 0 1 ∈ interleave (serialize [2, 0, 1])) ∧
    ∃ pre post, interleave (serialize [2, 0, 1])
      = pre ++ OutFrame.up 0 :: OutFrame.interp 0 1 :: OutFrame.up 1 :: post :=
  ⟨(sink_ordering [2, 0, 1]).1, by decide, (sink_ordering [2, 0, 1]).2 0 1 (by decide)⟩

/-- C8 (Auto strategy modelled from the spec): Auto selects Conservative
exactly when the observed usage percentage is at least 90, Balanced exactly
when it is at least 75 and below 90, and Aggressive exactly when it is
below 75, the boundary values 90 and 75 included. -/
theorem auto_strategy_thresholds (p : ℚ) :
    (autoChoose p = MemoryStrategy.conservative ↔ 90 ≤ p) ∧
    (autoChoose p = MemoryStrategy.balanced ↔ 75 ≤ p ∧ p < 90) ∧
    (autoChoose p = MemoryStrategy.aggressive ↔ p < 75) ∧
    autoChoose 90 = MemoryStrategy.conservative ∧
    autoChoose 75 = MemoryStrategy.balanced := by
  have hb1 : autoChoose 90 = MemoryStrategy.conservative := by
    unfold autoChoose
    rw [if_pos (le_refl (90 : ℚ))]
  have hb2 : autoChoose 75 = MemoryStrategy.balanced := by
    unfold autoChoose
    rw [if_neg (by norm_num), if_pos (le_refl (75 : ℚ))]
  by_cases h1 : (90 : ℚ) ≤ p
  · have he : autoChoose p = MemoryStrategy.conservative := by
      unfold autoChoose
      rw [if_pos h1]
    refine ⟨⟨fun _ => h1, fun _ => he⟩, ⟨?_, ?_⟩, ⟨?_, ?_⟩, hb1, hb2⟩
    · intro hc; rw [he] at hc; exact absurd hc (by decide)
    · intro hc; exact absurd h1 (not_le.mpr hc.2)
    · intro hc; rw [he] at hc; exact absurd hc (by decide)
    · intro hc; exact absurd h1 (not_le.mpr (lt_trans hc (by norm_num)))
  · by_cases h2 : (75 : ℚ) ≤ p
    · have he : autoChoose p = MemoryStrategy.balanced := by
        unfold autoChoose
        rw [if_neg h1, if_pos h2]
      refine ⟨⟨?_, ?_⟩, ⟨fun _ => ⟨h2, not_le.mp h1⟩, fun _ => he⟩, ⟨?_, ?_⟩, hb1, hb2⟩
      · intro hc; rw [he] at hc; exact absurd hc (by decide)
      · intro hc; exact absurd hc h1
      · intro hc; rw [he] at hc; exact absurd hc (by decide)
      · intro hc; exact absurd h2 (not_le.mpr hc)
    · have he : autoChoose p = MemoryStrategy.aggressive := by
        unfold autoChoose
        rw [if_neg h1, if_neg h2]
      refine ⟨⟨?_, ?_⟩, ⟨?_, ?_⟩, ⟨fun _ => not_le.mp h2, fun _ => he⟩, hb1, hb2⟩
      · intro hc; rw [he] at hc; exact absurd hc (by decide)
      · intro hc; exact absurd hc h1
      · intro hc; rw [he] at hc; exact absurd hc (by decide)
      · intro hc; exact absurd hc.1 h2

/-- C10: calling `set_memory_strategy` when no upscaler instance exists, or
when the current upscaler does not expose the `set_memory_strategy`
capability, returns without raising and changes no state: selecting a
memory strategy before capture has started is a silent no-op. -/
theorem set_memory_strategy_noop (st : GuiState) (index : ℤ)
    (h : st.upscaler = Option.none
      ∨ ∃ u, st.upscaler = some u ∧ u.hasSetMemoryStrategy = false) :
    set_memory_strategy st index = .ok st := by
  rcases h with h | ⟨u, hu, hcap⟩
  · simp [set_memory_strategy, h]
  · simp [set_memory_strategy, hu, hcap]

/-- Witness for C10 on the pre-capture state with no upscaler. -/
theorem set_memory_strategy_noop_witness :
    ((GuiState.mk Option.none).upscaler = Option.none
      ∨ ∃ u, (GuiState.mk Option.none).upscaler = some u
          ∧ u.hasSetMemoryStrategy = false) ∧
    set_memory_strategy (GuiState.mk Option.none) 0 = .ok (GuiState.mk Option.none) :=
  ⟨Or.inl rfl, set_memory_strategy_noop (GuiState.mk Option.none) 0 (Or.inl rfl)⟩

end NuScaler
